import Mathlib

/-!
Verification of the mxnet repository excerpt: the tvmop benchmark timing
harness (`benchmark/python/tvmop/benchmark_tvmop.py`), the Windows build
flavour table (`ci/build_windows.py`) and the metric-handler validation
utility (`python/mxnet/gluon/contrib/estimator/utils.py`).

The benchmark harness is embedded as explicit state passing over a `World`
that carries the wall clock, the amount of pending asynchronous backend
work, a counter for fresh random-array allocation, a log of backend events
(barriers, clock reads, allocations, operation invocations) and the lines
printed to stdout.  `mx.nd.waitall()` drains the pending work into the
clock; `time.time()` reads the clock; `mx.nd.random.uniform` allocates a
fresh array; invoking a candidate operation advances the clock by its
synchronous dispatch cost and enqueues its asynchronous cost.
-/

/-- A Python exception value.  `zeroDivisionError` is the error raised by
`diff / repeat` when `repeat = 0`; `exc tag` stands for any other exception
raised by a candidate operation. -/
inductive PyErr where
  | zeroDivisionError
  | exc (tag : String)
deriving DecidableEq, Repr

/-- An mxnet ndarray as far as the harness observes it: a fresh allocation
identifier and its shape.  (`mx.nd.random.uniform(shape=(m, k))` returns a
freshly allocated array of that shape.) -/
structure MxArray where
  id : Nat
  shape : Nat × Nat
deriving DecidableEq, Repr

/-- Backend events emitted while the harness runs. -/
inductive Event where
  /-- `mx.nd.waitall()`: block until all pending asynchronous work is done. -/
  | barrier
  /-- `time.time()`: read the wall clock. -/
  | clockRead
  /-- `mx.nd.random.uniform(...)`: allocate a fresh random array. -/
  | genInput (a : MxArray)
  /-- one call `func_name(*args)` of the operation named `name` on inputs `a`, `b`. -/
  | invoke (name : String) (a b : MxArray)
deriving DecidableEq, Repr

/-- One line printed to stdout by the benchmark script. -/
inductive OutLine where
  /-- `print(f"\x7bm\x7d * \x7bk\x7d X \x7bk\x7d * \x7bn\x7d")` -/
  | shapes (m k n : Nat)
  /-- `print(f"\x7blabel\x7d cost: \x7bcost * 1000\x7d ms")` -/
  | cost (label : String) (ms : ℚ)
deriving DecidableEq, Repr

/-- The state threaded through the harness. -/
structure World where
  clock : ℚ
  pending : ℚ
  rng : Nat
  log : List Event
  stdout : List OutLine
deriving DecidableEq, Repr

/-- `mx.nd.waitall()`: the wall clock advances by however long the pending
asynchronous work takes to finish; afterwards nothing is pending. -/
def waitall (w : World) : World :=
  { w with clock := w.clock + w.pending, pending := 0, log := w.log ++ [Event.barrier] }

/-- `time.time()`: read the wall clock (the read itself takes no time). -/
def timeTime (w : World) : ℚ × World :=
  (w.clock, { w with log := w.log ++ [Event.clockRead] })

/-- `mx.nd.random.uniform(shape=shape, dtype='float32')`: allocate a fresh
array of the given shape. -/
def uniform (shape : Nat × Nat) (w : World) : MxArray × World :=
  let a : MxArray := { id := w.rng, shape := shape }
  (a, { w with rng := w.rng + 1, log := w.log ++ [Event.genInput a] })

/-- A candidate operation as the harness observes it: its name (the Python
function object identity), the label used when printing its cost, its
synchronous dispatch cost, the asynchronous work it enqueues, and whether a
call on operands of the given shapes raises.  The three candidates in the
source (`mx.nd.contrib.tvm_dot`, `mx.nd.contrib.tvm_dot_fallback`,
`mx.nd.dot`) are opaque backend operations, so their behaviour is a
parameter of the model. -/
structure Candidate where
  name : String
  label : String
  dispatch : Nat × Nat → Nat × Nat → ℚ
  async : Nat × Nat → Nat × Nat → ℚ
  raises : Nat × Nat → Nat × Nat → Option PyErr

/-- One call `func_name(*args)`: log the invocation; if the operation
raises, the exception propagates; otherwise the clock advances by the
dispatch cost and the asynchronous work is enqueued. -/
def callOp (c : Candidate) (a b : MxArray) (w : World) : Except PyErr Unit × World :=
  let w1 := { w with log := w.log ++ [Event.invoke c.name a b] }
  match c.raises a.shape b.shape with
  | some e => (Except.error e, w1)
  | none =>
      (Except.ok (),
       { w1 with clock := w1.clock + c.dispatch a.shape b.shape,
                 pending := w1.pending + c.async a.shape b.shape })

/-- `for _ in range(repeat): func_name(*args, **kwargs)` — the loop body of
`measure_cost`; an exception raised by a call aborts the loop. -/
def runCalls (c : Candidate) (a b : MxArray) : Nat → World → Except PyErr Unit × World
  | 0, w => (Except.ok (), w)
  | n + 1, w =>
      match callOp c a b w with
      | (Except.ok _, w1) => runCalls c a b n w1
      | (Except.error e, w1) => (Except.error e, w1)

/-- `measure_cost(repeat, func_name, *args, **kwargs)` from
`benchmark_tvmop.py`:
```
mx.nd.waitall()
start = time.time()
for _ in range(repeat):
    func_name(*args, **kwargs)
mx.nd.waitall()
end = time.time()
diff = end - start
return diff / repeat
```
The division is performed last, exactly as in the source, so `repeat = 0`
reaches it with zero invocations performed and raises there. -/
def measure_cost (r : Nat) (c : Candidate) (a b : MxArray) (w : World) :
    Except PyErr ℚ × World :=
  let w1 := waitall w
  let (tStart, w2) := timeTime w1
  match runCalls c a b r w2 with
  | (Except.error e, w3) => (Except.error e, w3)
  | (Except.ok _, w3) =>
      let w4 := waitall w3
      let (tEnd, w5) := timeTime w4
      let diff := tEnd - tStart
      if r = 0 then (Except.error PyErr.zeroDivisionError, w5)
      else (Except.ok (diff / (r : ℚ)), w5)

/-! ### Closed forms for `measure_cost` -/

theorem runCalls_ok (c : Candidate) (a b : MxArray)
    (h : c.raises a.shape b.shape = none) (n : Nat)
    (wc wp : ℚ) (wr : Nat) (wl : List Event) (wo : List OutLine) :
    runCalls c a b n ⟨wc, wp, wr, wl, wo⟩ =
      (Except.ok (),
       ⟨wc + n * c.dispatch a.shape b.shape,
        wp + n * c.async a.shape b.shape,
        wr,
        wl ++ List.replicate n (Event.invoke c.name a b),
        wo⟩) := by
  induction n generalizing wc wp wl with
  | zero => simp [runCalls]
  | succ n ih =>
      simp only [runCalls, callOp, h]
      rw [ih]
      simp only [Prod.mk.injEq, World.mk.injEq, true_and, and_true]
      refine ⟨by push_cast; ring, by push_cast; ring, ?_⟩
      simp [List.replicate_succ]

theorem measure_cost_ok (r : Nat) (hr : r ≠ 0) (c : Candidate) (a b : MxArray)
    (h : c.raises a.shape b.shape = none)
    (wc wp : ℚ) (wr : Nat) (wl : List Event) (wo : List OutLine) :
    measure_cost r c a b ⟨wc, wp, wr, wl, wo⟩ =
      (Except.ok (c.dispatch a.shape b.shape + c.async a.shape b.shape),
       ⟨wc + wp + r * (c.dispatch a.shape b.shape + c.async a.shape b.shape),
        0,
        wr,
        wl ++ Event.barrier :: Event.clockRead ::
          (List.replicate r (Event.invoke c.name a b)
            ++ [Event.barrier, Event.clockRead]),
        wo⟩) := by
  have hr' : (r : ℚ) ≠ 0 := Nat.cast_ne_zero.mpr hr
  simp only [measure_cost, waitall, timeTime]
  rw [runCalls_ok c a b h]
  simp only [waitall, timeTime, hr, if_false]
  simp only [Prod.mk.injEq, World.mk.injEq, true_and, and_true]
  refine ⟨?_, by ring, by simp⟩
  congr 1
  rw [div_eq_iff hr']
  ring

theorem runCalls_err (c : Candidate) (a b : MxArray) (e : PyErr)
    (h : c.raises a.shape b.shape = some e) (n : Nat) (w : World) :
    runCalls c a b (n + 1) w =
      (Except.error e, { w with log := w.log ++ [Event.invoke c.name a b] }) := by
  simp [runCalls, callOp, h]

theorem measure_cost_err (n : Nat) (c : Candidate) (a b : MxArray) (e : PyErr)
    (h : c.raises a.shape b.shape = some e)
    (wc wp : ℚ) (wr : Nat) (wl : List Event) (wo : List OutLine) :
    measure_cost (n + 1) c a b ⟨wc, wp, wr, wl, wo⟩ =
      (Except.error e,
       ⟨wc + wp, 0, wr,
        wl ++ [Event.barrier, Event.clockRead, Event.invoke c.name a b],
        wo⟩) := by
  simp only [measure_cost, waitall, timeTime]
  rw [runCalls_err c a b e h]
  simp

theorem measure_cost_zero (c : Candidate) (a b : MxArray)
    (wc wp : ℚ) (wr : Nat) (wl : List Event) (wo : List OutLine) :
    measure_cost 0 c a b ⟨wc, wp, wr, wl, wo⟩ =
      (Except.error PyErr.zeroDivisionError,
       ⟨wc + wp, 0, wr,
        wl ++ [Event.barrier, Event.clockRead, Event.barrier, Event.clockRead],
        wo⟩) := by
  simp [measure_cost, waitall, timeTime, runCalls]

/-! ### Claims about `measure_cost` -/

/-- Checks that every clock read in an event list is immediately preceded
by a synchronization barrier. -/
def barrierBeforeReads : List Event → Bool
  | [] => true
  | Event.barrier :: Event.clockRead :: rest => barrierBeforeReads rest
  | Event.clockRead :: _ => false
  | _ :: rest => barrierBeforeReads rest

theorem barrierBeforeReads_replicate_invoke (nm : String) (a b : MxArray) (n : Nat)
    (l : List Event) :
    barrierBeforeReads (List.replicate n (Event.invoke nm a b) ++ l)
      = barrierBeforeReads l := by
  induction n with
  | zero => simp
  | succ n ih => simp [List.replicate_succ, barrierBeforeReads, ih]

/-- C1: for every positive `repeat`, operation and inputs, `measure_cost`
invokes the operation exactly `repeat` times, each time on the same inputs
(the event log grows by exactly `repeat` `invoke` events, all carrying the
same operands), and the returned value is `(end_time - start_time) / repeat`
where `start_time` is the clock right after the initial barrier and
`end_time` is the clock at the final read. -/
theorem measure_cost_invokes_repeat_and_returns_mean (r : Nat) (hr : 1 ≤ r)
    (c : Candidate) (a b : MxArray) (hok : c.raises a.shape b.shape = none)
    (wc wp : ℚ) (wr : Nat) (wl : List Event) (wo : List OutLine) :
    (measure_cost r c a b ⟨wc, wp, wr, wl, wo⟩).2.log =
        wl ++ Event.barrier :: Event.clockRead ::
          (List.replicate r (Event.invoke c.name a b)
            ++ [Event.barrier, Event.clockRead])
    ∧ (measure_cost r c a b ⟨wc, wp, wr, wl, wo⟩).1 =
        Except.ok (((measure_cost r c a b ⟨wc, wp, wr, wl, wo⟩).2.clock
            - (waitall ⟨wc, wp, wr, wl, wo⟩).clock) / (r : ℚ)) := by
  have hr0 : r ≠ 0 := Nat.one_le_iff_ne_zero.mp hr
  have hr' : (r : ℚ) ≠ 0 := Nat.cast_ne_zero.mpr hr0
  rw [measure_cost_ok r hr0 c a b hok]
  refine ⟨rfl, ?_⟩
  simp only [waitall]
  congr 1
  rw [eq_div_iff hr']
  ring

/-- Witness for C1 at a concrete input: a candidate with dispatch cost 2
and asynchronous cost 1, measured with `repeat = 3`. -/
def candA : Candidate :=
  { name := "opA", label := "A",
    dispatch := fun _ _ => 2, async := fun _ _ => 1, raises := fun _ _ => none }

def arrW0 : MxArray := { id := 0, shape := (1, 1) }

def arrW1 : MxArray := { id := 1, shape := (1, 1) }

def worldW : World := ⟨0, 0, 2, [], []⟩

theorem measure_cost_invokes_repeat_and_returns_mean_witness :
    (1 ≤ 3 ∧ candA.raises arrW0.shape arrW1.shape = none)
    ∧ ((measure_cost 3 candA arrW0 arrW1 ⟨0, 0, 2, [], []⟩).2.log =
        [] ++ Event.barrier :: Event.clockRead ::
          (List.replicate 3 (Event.invoke candA.name arrW0 arrW1)
            ++ [Event.barrier, Event.clockRead])
      ∧ (measure_cost 3 candA arrW0 arrW1 ⟨0, 0, 2, [], []⟩).1 =
        Except.ok (((measure_cost 3 candA arrW0 arrW1 ⟨0, 0, 2, [], []⟩).2.clock
            - (waitall ⟨0, 0, 2, [], []⟩).clock) / ((3 : Nat) : ℚ))) :=
  ⟨⟨by decide, rfl⟩,
   measure_cost_invokes_repeat_and_returns_mean 3 (by decide) candA arrW0 arrW1 rfl 0 0 2 [] []⟩

/-- C2: calling `measure_cost` with `repeat = 0` fails with the
division-by-zero error (the `InvalidArgument` failure of the spec,
realized by Python as `ZeroDivisionError` at `diff / repeat`) instead of
silently returning a number, and the operation is never invoked: the log
grows only by the two barrier/clock-read pairs, with no `invoke` event. -/
theorem measure_cost_zero_repeat_errors (c : Candidate) (a b : MxArray)
    (wc wp : ℚ) (wr : Nat) (wl : List Event) (wo : List OutLine) :
    (measure_cost 0 c a b ⟨wc, wp, wr, wl, wo⟩).1 =
        Except.error PyErr.zeroDivisionError
    ∧ (measure_cost 0 c a b ⟨wc, wp, wr, wl, wo⟩).2.log =
        wl ++ [Event.barrier, Event.clockRead, Event.barrier, Event.clockRead] := by
  rw [measure_cost_zero]
  exact ⟨rfl, rfl⟩

/-- C3: in every call to `measure_cost` — any repeat count, any operation,
raising or not — every clock read in the newly emitted events is
immediately preceded by a synchronization barrier, and the returned value
is unchanged if the pending asynchronous work left over from earlier calls
is erased, i.e. the measurement never charges this invocation for work
dispatched before it. -/
theorem measure_cost_barriers_guard_clock_reads (r : Nat) (c : Candidate)
    (a b : MxArray) (wc wp : ℚ) (wr : Nat) (wl : List Event) (wo : List OutLine) :
    (∃ emitted,
        (measure_cost r c a b ⟨wc, wp, wr, wl, wo⟩).2.log = wl ++ emitted
        ∧ barrierBeforeReads emitted = true)
    ∧ (measure_cost r c a b ⟨wc, wp, wr, wl, wo⟩).1 =
        (measure_cost r c a b ⟨wc, 0, wr, wl, wo⟩).1 := by
  cases r with
  | zero =>
      rw [measure_cost_zero, measure_cost_zero]
      exact ⟨⟨_, rfl, rfl⟩, rfl⟩
  | succ n =>
      cases hra : c.raises a.shape b.shape with
      | none =>
          rw [measure_cost_ok (n + 1) n.succ_ne_zero c a b hra,
            measure_cost_ok (n + 1) n.succ_ne_zero c a b hra]
          refine ⟨⟨_, rfl, ?_⟩, rfl⟩
          simp [barrierBeforeReads, barrierBeforeReads_replicate_invoke]
      | some e =>
          rw [measure_cost_err n c a b e hra, measure_cost_err n c a b e hra]
          exact ⟨⟨_, rfl, rfl⟩, rfl⟩

/-- C8: for an operation whose every call costs the fixed delay `d` — the
clock advances by `d` per call and nothing is enqueued for the barriers to
drain — `measure_cost` returns exactly `d` for every `repeat ≥ 1`; the
right-hand side does not mention `r`, so the per-call estimate is
independent of the repeat count. -/
theorem measure_cost_constant_delay_returns_delay (r : Nat) (hr : 1 ≤ r)
    (nm lbl : String) (d : ℚ) (a b : MxArray)
    (wc wp : ℚ) (wr : Nat) (wl : List Event) (wo : List OutLine) :
    (measure_cost r
        ⟨nm, lbl, fun _ _ => d, fun _ _ => 0, fun _ _ => none⟩
        a b ⟨wc, wp, wr, wl, wo⟩).1 = Except.ok d := by
  rw [measure_cost_ok r (Nat.one_le_iff_ne_zero.mp hr)
    ⟨nm, lbl, fun _ _ => d, fun _ _ => 0, fun _ _ => none⟩ a b rfl]
  simp

theorem measure_cost_constant_delay_returns_delay_witness :
    (1 ≤ 2)
    ∧ (measure_cost 2
        ⟨"opD", "D", fun _ _ => (5 : ℚ), fun _ _ => 0, fun _ _ => none⟩
        arrW0 arrW1 ⟨0, 0, 2, [], []⟩).1 = Except.ok 5 :=
  ⟨by decide,
   measure_cost_constant_delay_returns_delay 2 (by decide) "opD" "D" 5 arrW0 arrW1 0 0 2 [] []⟩

/-! ### The sweep of `test_tvm_dot` -/

/-- The per-candidate body of the sweep in `test_tvm_dot`, generalized from
the three hard-coded candidates to a list.  For each candidate, in order:
```
a = mx.nd.random.uniform(shape=(m, k), dtype='float32')
b = mx.nd.random.uniform(shape=(k, n), dtype='float32')
cost = measure_cost(2, <candidate>, a, b)
print(f"<label> cost: \x7bcost * 1000\x7d ms")
```
with `m = k = n = s`; an exception from `measure_cost` aborts the loop. -/
def measureCandidates (r s : Nat) : List Candidate → World → Except PyErr Unit × World
  | [], w => (Except.ok (), w)
  | c :: cs, w =>
      let (a, w1) := uniform (s, s) w
      let (b, w2) := uniform (s, s) w1
      match measure_cost r c a b w2 with
      | (Except.error e, w3) => (Except.error e, w3)
      | (Except.ok cost, w3) =>
          let w4 := { w3 with stdout := w3.stdout ++ [OutLine.cost c.label (cost * 1000)] }
          measureCandidates r s cs w4

/-- The sweep loop of `test_tvm_dot`, generalized over the list of sizes
and the list of candidates:
```
for i in sizes:
    m = i; k = i; n = i
    print(f"\x7bm\x7d * \x7bk\x7d X \x7bk\x7d * \x7bn\x7d")
    <measure each candidate in order>
```
An exception from a measurement aborts the whole sweep. -/
def runSweep (cands : List Candidate) (r : Nat) : List Nat → World → Except PyErr Unit × World
  | [], w => (Except.ok (), w)
  | s :: rest, w =>
      let w1 := { w with stdout := w.stdout ++ [OutLine.shapes s s s] }
      match measureCandidates r s cands w1 with
      | (Except.error e, w2) => (Except.error e, w2)
      | (Except.ok _, w2) => runSweep cands r rest w2

/-- The behaviour of one opaque backend operation (its implementation is
not part of this repository excerpt). -/
structure OpBehaviour where
  dispatch : Nat × Nat → Nat × Nat → ℚ
  async : Nat × Nat → Nat × Nat → ℚ
  raises : Nat × Nat → Nat × Nat → Option PyErr

/-- The three candidates compared by `test_tvm_dot`, with the print labels
used in the source: `mx.nd.contrib.tvm_dot` is reported as "dispatch",
`mx.nd.contrib.tvm_dot_fallback` as "fallback" and `mx.nd.dot` as "dot". -/
def tvmDotCandidates (bTvm bFallback bDot : OpBehaviour) : List Candidate :=
  [⟨"mx.nd.contrib.tvm_dot", "dispatch", bTvm.dispatch, bTvm.async, bTvm.raises⟩,
   ⟨"mx.nd.contrib.tvm_dot_fallback", "fallback",
     bFallback.dispatch, bFallback.async, bFallback.raises⟩,
   ⟨"mx.nd.dot", "dot", bDot.dispatch, bDot.async, bDot.raises⟩]

/-- `list(range(1000, 1100, 4))`: the sizes swept by `test_tvm_dot`. -/
def sweepSizes : List Nat := List.range' 1000 25 4

/-- `test_tvm_dot()`, parameterized by the behaviours of the three opaque
backend operations it compares with `repeat = 2`. -/
def test_tvm_dot (bTvm bFallback bDot : OpBehaviour) (w : World) :
    Except PyErr Unit × World :=
  runSweep (tvmDotCandidates bTvm bFallback bDot) 2 sweepSizes w

/-- The `if __name__ == "__main__":` entry point runs exactly
`test_tvm_dot()`. -/
def mainEntry : OpBehaviour → OpBehaviour → OpBehaviour → World →
    Except PyErr Unit × World :=
  test_tvm_dot

/-- The stdout line the sweep prints for candidate `c` at size `s` when the
measurement succeeds: per-call cost (dispatch plus asynchronous work of one
call) times 1000. -/
def costLine (c : Candidate) (s : Nat) : OutLine :=
  OutLine.cost c.label ((c.dispatch (s, s) (s, s) + c.async (s, s) (s, s)) * 1000)

/-- The stdout block the sweep prints for one size: the shapes line, then
one cost line per candidate in order. -/
def sizeBlock (cands : List Candidate) (s : Nat) : List OutLine :=
  OutLine.shapes s s s :: cands.map (fun c => costLine c s)

/-- The event-log block one successful measurement loop over the candidate
list emits, with fresh-array identifiers counted from `g`. -/
def candLog (r s : Nat) : List Candidate → Nat → List Event
  | [], _ => []
  | c :: cs, g =>
      Event.genInput ⟨g, (s, s)⟩ :: Event.genInput ⟨g + 1, (s, s)⟩ ::
        Event.barrier :: Event.clockRead ::
          (List.replicate r (Event.invoke c.name ⟨g, (s, s)⟩ ⟨g + 1, (s, s)⟩)
            ++ Event.barrier :: Event.clockRead :: candLog r s cs (g + 1 + 1))

/-- The event log a fully successful sweep emits. -/
def sweepLog (cands : List Candidate) (r : Nat) : List Nat → Nat → List Event
  | [], _ => []
  | s :: rest, g =>
      candLog r s cands g ++ sweepLog cands r rest (g + 2 * cands.length)

/-- The ordered list of (size, candidate label) measurement events readable
off the printed output: each cost line is attributed to the size announced
by the most recent shapes line. -/
def measuredPairs : List OutLine → Option Nat → List (Nat × String)
  | [], _ => []
  | OutLine.shapes m _ _ :: rest, _ => measuredPairs rest (some m)
  | OutLine.cost lbl _ :: rest, some s => (s, lbl) :: measuredPairs rest (some s)
  | OutLine.cost _ _ :: rest, none => measuredPairs rest none

/-- The events falling strictly inside a timed region: the clock reads come
in start/stop pairs, so scanning the log while toggling at each read and
collecting while inside yields exactly the events between `start = time.time()`
and `end = time.time()`. -/
def timedEvents : List Event → Bool → List Event
  | [], _ => []
  | e :: rest, inside =>
      match e with
      | Event.clockRead => timedEvents rest (!inside)
      | _ => if inside then e :: timedEvents rest inside else timedEvents rest inside

/-- Whether an event is a random-input generation. -/
def Event.isGenInput : Event → Bool
  | Event.genInput _ => true
  | _ => false

/-- The identifiers of the arrays generated in a log, in order. -/
def genIds : List Event → List Nat
  | [] => []
  | Event.genInput a :: rest => a.id :: genIds rest
  | _ :: rest => genIds rest

/-- Checks that every invocation in the log only uses arrays that were
generated earlier in the log (or were already available in `seen`). -/
def usesOnlyGenerated : List Event → List MxArray → Bool
  | [], _ => true
  | Event.genInput a :: rest, seen => usesOnlyGenerated rest (a :: seen)
  | Event.invoke _ a b :: rest, seen =>
      (decide (a ∈ seen) && decide (b ∈ seen)) && usesOnlyGenerated rest seen
  | _ :: rest, seen => usesOnlyGenerated rest seen

/-! ### Closed forms for the sweep -/

theorem measureCandidates_ok (r s : Nat) (hr : r ≠ 0) (cs : List Candidate)
    (hall : ∀ c ∈ cs, c.raises (s, s) (s, s) = none) :
    ∀ (wc wp : ℚ) (wr : Nat) (wl : List Event) (wo : List OutLine),
    ∃ clk pnd, measureCandidates r s cs ⟨wc, wp, wr, wl, wo⟩ =
      (Except.ok (),
       ⟨clk, pnd, wr + 2 * cs.length,
        wl ++ candLog r s cs wr,
        wo ++ cs.map (fun c => costLine c s)⟩) := by
  revert hall
  induction cs with
  | nil =>
      intro _ wc wp wr wl wo
      exact ⟨wc, wp, by simp [measureCandidates, candLog]⟩
  | cons c cs ih =>
      intro hall wc wp wr wl wo
      have hc : c.raises (s, s) (s, s) = none := hall c (List.mem_cons_self c cs)
      have hcs : ∀ x ∈ cs, x.raises (s, s) (s, s) = none :=
        fun x hx => hall x (List.mem_cons_of_mem c hx)
      simp only [measureCandidates, uniform]
      rw [measure_cost_ok r hr c ⟨wr, (s, s)⟩ ⟨wr + 1, (s, s)⟩ hc]
      dsimp only
      obtain ⟨clk, pnd, hrec⟩ :=
        ih hcs (wc + wp + r * (c.dispatch (s, s) (s, s) + c.async (s, s) (s, s))) 0
          (wr + 1 + 1)
          ((wl ++ [Event.genInput ⟨wr, (s, s)⟩] ++ [Event.genInput ⟨wr + 1, (s, s)⟩])
            ++ Event.barrier :: Event.clockRead ::
              (List.replicate r (Event.invoke c.name ⟨wr, (s, s)⟩ ⟨wr + 1, (s, s)⟩)
                ++ [Event.barrier, Event.clockRead]))
          (wo ++ [OutLine.cost c.label
            ((c.dispatch (s, s) (s, s) + c.async (s, s) (s, s)) * 1000)])
      rw [hrec]
      refine ⟨clk, pnd, ?_⟩
      simp only [Prod.mk.injEq, World.mk.injEq, true_and, and_true]
      refine ⟨by simp only [List.length_cons]; omega, ?_, ?_⟩
      · simp [candLog, List.append_assoc]
      · simp [costLine, List.append_assoc]

theorem runSweep_ok (cands : List Candidate) (r : Nat) (hr : r ≠ 0) (sizes : List Nat)
    (hall : ∀ s ∈ sizes, ∀ c ∈ cands, c.raises (s, s) (s, s) = none) :
    ∀ (wc wp : ℚ) (wr : Nat) (wl : List Event) (wo : List OutLine),
    ∃ clk pnd, runSweep cands r sizes ⟨wc, wp, wr, wl, wo⟩ =
      (Except.ok (),
       ⟨clk, pnd, wr + sizes.length * (2 * cands.length),
        wl ++ sweepLog cands r sizes wr,
        wo ++ sizes.flatMap (sizeBlock cands)⟩) := by
  revert hall
  induction sizes with
  | nil =>
      intro _ wc wp wr wl wo
      exact ⟨wc, wp, by simp [runSweep, sweepLog]⟩
  | cons s rest ih =>
      intro hall wc wp wr wl wo
      have hs : ∀ c ∈ cands, c.raises (s, s) (s, s) = none :=
        hall s (List.mem_cons_self s rest)
      have hrest : ∀ t ∈ rest, ∀ c ∈ cands, c.raises (t, t) (t, t) = none :=
        fun t ht => hall t (List.mem_cons_of_mem s ht)
      simp only [runSweep]
      obtain ⟨clk1, pnd1, h1⟩ :=
        measureCandidates_ok r s hr cands hs wc wp wr wl (wo ++ [OutLine.shapes s s s])
      rw [h1]
      dsimp only
      obtain ⟨clk, pnd, h2⟩ :=
        ih hrest clk1 pnd1 (wr + 2 * cands.length) (wl ++ candLog r s cands wr)
          ((wo ++ [OutLine.shapes s s s]) ++ cands.map (fun c => costLine c s))
      rw [h2]
      refine ⟨clk, pnd, ?_⟩
      simp only [Prod.mk.injEq, World.mk.injEq, true_and, and_true]
      refine ⟨by simp only [List.length_cons]; ring, ?_, ?_⟩
      · simp [sweepLog, List.append_assoc]
      · simp [sizeBlock, List.append_assoc]

theorem measureCandidates_fail (r : Nat) (hr : r ≠ 0) (s : Nat)
    (cpre cpost : List Candidate) (c0 : Candidate) (e : PyErr)
    (hpre : ∀ c ∈ cpre, c.raises (s, s) (s, s) = none)
    (hfail : c0.raises (s, s) (s, s) = some e) :
    ∀ (wc wp : ℚ) (wr : Nat) (wl : List Event) (wo : List OutLine),
    ∃ w', measureCandidates r s (cpre ++ c0 :: cpost) ⟨wc, wp, wr, wl, wo⟩ =
        (Except.error e, w')
      ∧ w'.stdout = wo ++ cpre.map (fun c => costLine c s) := by
  revert hpre
  induction cpre with
  | nil =>
      intro _ wc wp wr wl wo
      rcases r with _ | n
      · exact absurd rfl hr
      simp only [List.nil_append, measureCandidates, uniform]
      rw [measure_cost_err n c0 ⟨wr, (s, s)⟩ ⟨wr + 1, (s, s)⟩ e hfail]
      dsimp only
      exact ⟨_, rfl, by simp⟩
  | cons c cs ih =>
      intro hpre wc wp wr wl wo
      have hc : c.raises (s, s) (s, s) = none := hpre c (List.mem_cons_self c cs)
      have hcs : ∀ x ∈ cs, x.raises (s, s) (s, s) = none :=
        fun x hx => hpre x (List.mem_cons_of_mem c hx)
      simp only [List.cons_append, measureCandidates, uniform]
      rw [measure_cost_ok r hr c ⟨wr, (s, s)⟩ ⟨wr + 1, (s, s)⟩ hc]
      dsimp only [List.append_eq]
      obtain ⟨w', hw', hout⟩ :=
        ih hcs (wc + wp + r * (c.dispatch (s, s) (s, s) + c.async (s, s) (s, s))) 0
          (wr + 1 + 1)
          ((wl ++ [Event.genInput ⟨wr, (s, s)⟩] ++ [Event.genInput ⟨wr + 1, (s, s)⟩])
            ++ Event.barrier :: Event.clockRead ::
              (List.replicate r (Event.invoke c.name ⟨wr, (s, s)⟩ ⟨wr + 1, (s, s)⟩)
                ++ [Event.barrier, Event.clockRead]))
          (wo ++ [OutLine.cost c.label
            ((c.dispatch (s, s) (s, s) + c.async (s, s) (s, s)) * 1000)])
      rw [hw']
      exact ⟨w', rfl, by rw [hout]; simp [costLine, List.append_assoc]⟩

theorem runSweep_fail (cands : List Candidate) (r : Nat) (hr : r ≠ 0)
    (pre post : List Nat) (s0 : Nat)
    (cpre cpost : List Candidate) (c0 : Candidate) (e : PyErr)
    (hcands : cands = cpre ++ c0 :: cpost)
    (hpre : ∀ s ∈ pre, ∀ c ∈ cands, c.raises (s, s) (s, s) = none)
    (hcpre : ∀ c ∈ cpre, c.raises (s0, s0) (s0, s0) = none)
    (hfail : c0.raises (s0, s0) (s0, s0) = some e) :
    ∀ (wc wp : ℚ) (wr : Nat) (wl : List Event) (wo : List OutLine),
    ∃ w', runSweep cands r (pre ++ s0 :: post) ⟨wc, wp, wr, wl, wo⟩ =
        (Except.error e, w')
      ∧ w'.stdout = wo ++ pre.flatMap (sizeBlock cands)
          ++ OutLine.shapes s0 s0 s0 :: cpre.map (fun c => costLine c s0) := by
  revert hpre
  induction pre with
  | nil =>
      intro _ wc wp wr wl wo
      simp only [List.nil_append, runSweep]
      subst hcands
      obtain ⟨w', hw', hout⟩ :=
        measureCandidates_fail r hr s0 cpre cpost c0 e hcpre hfail wc wp wr wl
          (wo ++ [OutLine.shapes s0 s0 s0])
      rw [hw']
      exact ⟨w', rfl, by rw [hout]; simp [List.append_assoc]⟩
  | cons s rest ih =>
      intro hpre wc wp wr wl wo
      have hs : ∀ c ∈ cands, c.raises (s, s) (s, s) = none :=
        hpre s (List.mem_cons_self s rest)
      have hrest : ∀ t ∈ rest, ∀ c ∈ cands, c.raises (t, t) (t, t) = none :=
        fun t ht => hpre t (List.mem_cons_of_mem s ht)
      simp only [List.cons_append, runSweep]
      obtain ⟨clk1, pnd1, h1⟩ :=
        measureCandidates_ok r s hr cands hs wc wp wr wl (wo ++ [OutLine.shapes s s s])
      rw [h1]
      dsimp only [List.append_eq]
      obtain ⟨w', hw', hout⟩ :=
        ih hrest clk1 pnd1 (wr + 2 * cands.length) (wl ++ candLog r s cands wr)
          ((wo ++ [OutLine.shapes s s s]) ++ cands.map (fun c => costLine c s))
      rw [hw']
      exact ⟨w', rfl, by rw [hout]; simp [sizeBlock, List.append_assoc]⟩

theorem measuredPairs_costs (s : Nat) (cs : List Candidate) (rest : List OutLine) :
    measuredPairs (cs.map (fun c => costLine c s) ++ rest) (some s)
      = cs.map (fun c => (s, c.label)) ++ measuredPairs rest (some s) := by
  induction cs with
  | nil => simp
  | cons c cs ih =>
      simp only [List.map_cons, List.cons_append, costLine, measuredPairs]
      simpa [costLine] using ih

theorem measuredPairs_flatMap (cands : List Candidate) (sizes : List Nat) (st : Option Nat) :
    measuredPairs (sizes.flatMap (sizeBlock cands)) st
      = sizes.flatMap (fun s => cands.map (fun c => (s, c.label))) := by
  induction sizes generalizing st with
  | nil => simp [measuredPairs]
  | cons s rest ih =>
      rw [List.flatMap_cons, List.flatMap_cons]
      simp only [sizeBlock, List.cons_append, measuredPairs, List.append_eq]
      rw [measuredPairs_costs, ih]

/-- C4: a fully successful sweep reports success, its printed output is,
for each size in the given order, the shapes line followed by one cost line
per candidate in the given order, and the (size, candidate label) pairs
read off the emitted output are exactly the lexicographic product of the
sizes (in order) by the candidates (in order) — no interleaving across
sizes. -/
theorem runSweep_lexicographic_order (cands : List Candidate) (r : Nat)
    (sizes : List Nat) (hr : 1 ≤ r)
    (hall : ∀ s ∈ sizes, ∀ c ∈ cands, c.raises (s, s) (s, s) = none)
    (wc wp : ℚ) (wr : Nat) (wl : List Event) (wo : List OutLine) :
    (runSweep cands r sizes ⟨wc, wp, wr, wl, wo⟩).1 = Except.ok ()
    ∧ (runSweep cands r sizes ⟨wc, wp, wr, wl, wo⟩).2.stdout
        = wo ++ sizes.flatMap (sizeBlock cands)
    ∧ measuredPairs (sizes.flatMap (sizeBlock cands)) none
        = sizes.flatMap (fun s => cands.map (fun c => (s, c.label))) := by
  obtain ⟨clk, pnd, h⟩ :=
    runSweep_ok cands r (Nat.one_le_iff_ne_zero.mp hr) sizes hall wc wp wr wl wo
  rw [h]
  exact ⟨rfl, rfl, measuredPairs_flatMap cands sizes none⟩

def candB : Candidate :=
  { name := "opB", label := "B",
    dispatch := fun _ _ => 3, async := fun _ _ => 1, raises := fun _ _ => none }

def candC : Candidate :=
  { name := "opC", label := "C",
    dispatch := fun _ _ => 4, async := fun _ _ => 2, raises := fun _ _ => none }

/-- A stub candidate that raises on operands of shape (8, 8). -/
def candFail : Candidate :=
  { name := "opF", label := "F",
    dispatch := fun _ _ => 1, async := fun _ _ => 0,
    raises := fun sa _ => if sa = (8, 8) then some (PyErr.exc "boom") else none }

/-- Witness for C4: the spec scenario of two sizes and three stub
candidates, yielding six ordered (size, label) measurement events. -/
theorem runSweep_lexicographic_order_witness :
    (1 ≤ 2 ∧ ∀ s ∈ [4, 8], ∀ c ∈ [candA, candB, candC], c.raises (s, s) (s, s) = none)
    ∧ ((runSweep [candA, candB, candC] 2 [4, 8] ⟨0, 0, 0, [], []⟩).1 = Except.ok ()
      ∧ (runSweep [candA, candB, candC] 2 [4, 8] ⟨0, 0, 0, [], []⟩).2.stdout
          = [] ++ [4, 8].flatMap (sizeBlock [candA, candB, candC])
      ∧ measuredPairs ([4, 8].flatMap (sizeBlock [candA, candB, candC])) none
          = [4, 8].flatMap (fun s => [candA, candB, candC].map (fun c => (s, c.label)))) :=
  ⟨⟨by decide, by decide⟩,
   runSweep_lexicographic_order [candA, candB, candC] 2 [4, 8] (by decide) (by decide)
     0 0 0 [] []⟩

/-- C5: if, at size `s0`, the candidates before `c0` succeed but `c0`
raises `e`, and all candidates succeeded on all earlier sizes, then the
whole sweep aborts with exactly `e` (propagated unmodified), the output
still holds the measurements of all earlier sizes, and for the failing
size only the shapes line and the cost lines of the candidates measured
before `c0` — nothing for `c0`, for later candidates, or for later
sizes. -/
theorem runSweep_fail_fast (cands cpre cpost : List Candidate) (c0 : Candidate)
    (r : Nat) (pre post : List Nat) (s0 : Nat) (e : PyErr)
    (hr : 1 ≤ r) (hcands : cands = cpre ++ c0 :: cpost)
    (hpre : ∀ s ∈ pre, ∀ c ∈ cands, c.raises (s, s) (s, s) = none)
    (hcpre : ∀ c ∈ cpre, c.raises (s0, s0) (s0, s0) = none)
    (hfail : c0.raises (s0, s0) (s0, s0) = some e)
    (wc wp : ℚ) (wr : Nat) (wl : List Event) (wo : List OutLine) :
    ∃ w', runSweep cands r (pre ++ s0 :: post) ⟨wc, wp, wr, wl, wo⟩ =
        (Except.error e, w')
      ∧ w'.stdout = wo ++ pre.flatMap (sizeBlock cands)
          ++ OutLine.shapes s0 s0 s0 :: cpre.map (fun c => costLine c s0) :=
  runSweep_fail cands r (Nat.one_le_iff_ne_zero.mp hr) pre post s0 cpre cpost c0 e
    hcands hpre hcpre hfail wc wp wr wl wo

/-- Witness for C5: candidate `candFail` raises on the second size (8)
after `candA` was measured; the sweep keeps size 4's measurements and
stops. -/
theorem runSweep_fail_fast_witness :
    (1 ≤ 2
      ∧ [candA, candFail] = [candA] ++ candFail :: []
      ∧ (∀ s ∈ [4], ∀ c ∈ [candA, candFail], c.raises (s, s) (s, s) = none)
      ∧ (∀ c ∈ [candA], c.raises (8, 8) (8, 8) = none)
      ∧ candFail.raises (8, 8) (8, 8) = some (PyErr.exc "boom"))
    ∧ ∃ w', runSweep [candA, candFail] 2 ([4] ++ 8 :: []) ⟨0, 0, 0, [], []⟩ =
        (Except.error (PyErr.exc "boom"), w')
      ∧ w'.stdout = [] ++ [4].flatMap (sizeBlock [candA, candFail])
          ++ OutLine.shapes 8 8 8 :: [candA].map (fun c => costLine c 8) :=
  ⟨⟨by decide, rfl, by decide, by decide, by decide⟩,
   runSweep_fail_fast [candA, candFail] [candA] [] candFail 2 [4] [] 8
     (PyErr.exc "boom") (by decide) rfl (by decide) (by decide) (by decide)
     0 0 0 [] []⟩

/-! ### Freshness and timed-region lemmas for C6 -/

/-- The parity of clock reads in a log: whether a timed region is open
after scanning it. -/
def flipCount : List Event → Bool → Bool
  | [], p => p
  | Event.clockRead :: rest, p => flipCount rest (!p)
  | _ :: rest, p => flipCount rest p

theorem timedEvents_append (x y : List Event) (p : Bool) :
    timedEvents (x ++ y) p = timedEvents x p ++ timedEvents y (flipCount x p) := by
  induction x generalizing p with
  | nil => simp [timedEvents, flipCount]
  | cons e rest ih => cases e <;> cases p <;> simp [timedEvents, flipCount, ih]

theorem flipCount_append (x y : List Event) (p : Bool) :
    flipCount (x ++ y) p = flipCount y (flipCount x p) := by
  induction x generalizing p with
  | nil => simp [flipCount]
  | cons e rest ih => cases e <;> simp [flipCount, ih]

theorem timedEvents_replicate_invoke (n : Nat) (nm : String) (a b : MxArray) :
    timedEvents (List.replicate n (Event.invoke nm a b)) true
      = List.replicate n (Event.invoke nm a b) := by
  induction n with
  | zero => simp [timedEvents]
  | succ n ih => simp [List.replicate_succ, timedEvents, ih]

theorem flipCount_replicate_invoke (n : Nat) (nm : String) (a b : MxArray) (p : Bool) :
    flipCount (List.replicate n (Event.invoke nm a b)) p = p := by
  induction n with
  | zero => simp [flipCount]
  | succ n ih => simp [List.replicate_succ, flipCount, ih]

theorem timedEvents_candLog_cons (r s : Nat) (c : Candidate) (cs : List Candidate) (g : Nat) :
    timedEvents (candLog r s (c :: cs) g) false
      = List.replicate r (Event.invoke c.name ⟨g, (s, s)⟩ ⟨g + 1, (s, s)⟩)
        ++ Event.barrier :: timedEvents (candLog r s cs (g + 1 + 1)) false := by
  simp [candLog, timedEvents, timedEvents_append, flipCount_replicate_invoke,
    timedEvents_replicate_invoke]

theorem timed_no_genInput_candLog (r s : Nat) (cs : List Candidate) (g : Nat) :
    ∀ e ∈ timedEvents (candLog r s cs g) false, e.isGenInput = false := by
  induction cs generalizing g with
  | nil => intro e he; simp [candLog, timedEvents] at he
  | cons c cs ih =>
      intro e he
      rw [timedEvents_candLog_cons] at he
      rcases List.mem_append.mp he with h | h
      · rw [List.eq_of_mem_replicate h]
        rfl
      · rcases List.mem_cons.mp h with rfl | h
        · rfl
        · exact ih (g + 1 + 1) e h

theorem flipCount_candLog (r s : Nat) (cs : List Candidate) (g : Nat) :
    flipCount (candLog r s cs g) false = false := by
  induction cs generalizing g with
  | nil => simp [candLog, flipCount]
  | cons c cs ih =>
      simp [candLog, flipCount, flipCount_append, flipCount_replicate_invoke, ih]

theorem timed_no_genInput_sweepLog (cands : List Candidate) (r : Nat)
    (sizes : List Nat) (g : Nat) :
    ∀ e ∈ timedEvents (sweepLog cands r sizes g) false, e.isGenInput = false := by
  induction sizes generalizing g with
  | nil => intro e he; simp [sweepLog, timedEvents] at he
  | cons s rest ih =>
      intro e he
      simp only [sweepLog] at he
      rw [timedEvents_append, flipCount_candLog] at he
      rcases List.mem_append.mp he with h | h
      · exact timed_no_genInput_candLog r s cands g e h
      · exact ih (g + 2 * cands.length) e h

theorem genIds_append (x y : List Event) : genIds (x ++ y) = genIds x ++ genIds y := by
  induction x with
  | nil => simp [genIds]
  | cons e rest ih => cases e <;> simp [genIds, ih]

theorem genIds_replicate_invoke (n : Nat) (nm : String) (a b : MxArray) :
    genIds (List.replicate n (Event.invoke nm a b)) = [] := by
  induction n with
  | zero => simp [genIds]
  | succ n ih => simp [List.replicate_succ, genIds, ih]

theorem genIds_candLog (r s : Nat) (cs : List Candidate) (g : Nat) :
    genIds (candLog r s cs g) = List.range' g (2 * cs.length) := by
  induction cs generalizing g with
  | nil => simp [candLog, genIds]
  | cons c cs ih =>
      have h2 : 2 * (c :: cs).length = 2 * cs.length + 1 + 1 := by
        rw [List.length_cons]; ring
      rw [h2, List.range'_succ, List.range'_succ]
      simp [candLog, genIds, genIds_append, genIds_replicate_invoke, ih]

theorem genIds_sweepLog (cands : List Candidate) (r : Nat) (sizes : List Nat) (g : Nat) :
    genIds (sweepLog cands r sizes g)
      = List.range' g (sizes.length * (2 * cands.length)) := by
  induction sizes generalizing g with
  | nil => simp [sweepLog, genIds]
  | cons s rest ih =>
      simp only [sweepLog, genIds_append, genIds_candLog, ih]
      have h1 : g + 2 * cands.length = g + 1 * (2 * cands.length) := by ring
      have h2 : (s :: rest).length * (2 * cands.length)
          = rest.length * (2 * cands.length) + 2 * cands.length := by
        rw [List.length_cons]; ring
      rw [h1, h2]
      exact List.range'_append g (2 * cands.length) (rest.length * (2 * cands.length)) 1

/-- The arrays known after scanning a log: the previously known ones plus
every generated one. -/
def seenAfter : List Event → List MxArray → List MxArray
  | [], seen => seen
  | Event.genInput a :: rest, seen => seenAfter rest (a :: seen)
  | _ :: rest, seen => seenAfter rest seen

theorem usesOnlyGenerated_append (x y : List Event) (seen : List MxArray) :
    usesOnlyGenerated (x ++ y) seen
      = (usesOnlyGenerated x seen && usesOnlyGenerated y (seenAfter x seen)) := by
  induction x generalizing seen with
  | nil => simp [usesOnlyGenerated, seenAfter]
  | cons e rest ih =>
      cases e <;> simp [usesOnlyGenerated, seenAfter, ih, Bool.and_assoc]

theorem usesOnlyGenerated_replicate (n : Nat) (nm : String) (a b : MxArray)
    (seen : List MxArray) (ha : a ∈ seen) (hb : b ∈ seen) :
    usesOnlyGenerated (List.replicate n (Event.invoke nm a b)) seen = true := by
  induction n with
  | zero => simp [usesOnlyGenerated]
  | succ n ih => simp [List.replicate_succ, usesOnlyGenerated, ha, hb, ih]

theorem seenAfter_replicate (n : Nat) (nm : String) (a b : MxArray) (seen : List MxArray) :
    seenAfter (List.replicate n (Event.invoke nm a b)) seen = seen := by
  induction n with
  | zero => simp [seenAfter]
  | succ n ih => simp [List.replicate_succ, seenAfter, ih]

theorem usesOnlyGenerated_candLog (r s : Nat) (cs : List Candidate) (g : Nat)
    (seen : List MxArray) :
    usesOnlyGenerated (candLog r s cs g) seen = true := by
  induction cs generalizing g seen with
  | nil => simp [candLog, usesOnlyGenerated]
  | cons c cs ih =>
      simp only [candLog, usesOnlyGenerated, usesOnlyGenerated_append]
      rw [usesOnlyGenerated_replicate r c.name _ _ _ (by simp) (by simp),
        seenAfter_replicate]
      simp [usesOnlyGenerated, ih]

theorem seenAfter_monotone (x : List Event) (seen : List MxArray) (a : MxArray)
    (h : a ∈ seen) : a ∈ seenAfter x seen := by
  induction x generalizing seen with
  | nil => exact h
  | cons e rest ih =>
      cases e with
      | genInput b => exact ih _ (List.mem_cons_of_mem b h)
      | barrier => exact ih _ h
      | clockRead => exact ih _ h
      | invoke nm a' b' => exact ih _ h

theorem usesOnlyGenerated_sweepLog (cands : List Candidate) (r : Nat)
    (sizes : List Nat) (g : Nat) (seen : List MxArray) :
    usesOnlyGenerated (sweepLog cands r sizes g) seen = true := by
  induction sizes generalizing g seen with
  | nil => simp [sweepLog, usesOnlyGenerated]
  | cons s rest ih =>
      simp [sweepLog, usesOnlyGenerated_append, usesOnlyGenerated_candLog, ih]

theorem invoke_shape_candLog (r s : Nat) (cs : List Candidate) (g : Nat)
    (nm : String) (a b : MxArray) (h : Event.invoke nm a b ∈ candLog r s cs g) :
    a.shape = (s, s) ∧ b.shape = (s, s) := by
  induction cs generalizing g with
  | nil => simp [candLog] at h
  | cons c cs ih =>
      simp only [candLog, List.mem_cons, List.mem_append, List.mem_replicate,
        reduceCtorEq, false_or, Event.invoke.injEq] at h
      rcases h with ⟨-, -, rfl, rfl⟩ | h
      · exact ⟨rfl, rfl⟩
      · exact ih (g + 1 + 1) h

theorem invoke_shape_sweepLog (cands : List Candidate) (r : Nat) (sizes : List Nat)
    (g : Nat) (nm : String) (a b : MxArray)
    (h : Event.invoke nm a b ∈ sweepLog cands r sizes g) :
    ∃ s ∈ sizes, a.shape = (s, s) ∧ b.shape = (s, s) := by
  induction sizes generalizing g with
  | nil => simp [sweepLog] at h
  | cons s rest ih =>
      rcases List.mem_append.mp h with h | h
      · exact ⟨s, List.mem_cons_self s rest, invoke_shape_candLog r s cands g nm a b h⟩
      · obtain ⟨t, ht, hab⟩ := ih (g + 2 * cands.length) h
        exact ⟨t, List.mem_cons_of_mem s ht, hab⟩

/-- C6: in a successful sweep, the emitted event log is exactly
`sweepLog`, in which (a) no event inside a timed region (between a
clock-start read and the matching clock-stop read) is an input generation,
(b) the identifiers of all generated arrays are pairwise distinct — every
candidate is measured on independently allocated data, generated freshly
per candidate, (c) every invocation only uses arrays generated earlier in
the log, and (d) every invocation at a swept size uses two operands of the
same shapes (s, s). -/
theorem runSweep_fresh_inputs_outside_timed_region (cands : List Candidate) (r : Nat)
    (sizes : List Nat) (hr : 1 ≤ r)
    (hall : ∀ s ∈ sizes, ∀ c ∈ cands, c.raises (s, s) (s, s) = none)
    (wc wp : ℚ) (wr : Nat) (wl : List Event) (wo : List OutLine) :
    (runSweep cands r sizes ⟨wc, wp, wr, wl, wo⟩).2.log
        = wl ++ sweepLog cands r sizes wr
    ∧ (∀ e ∈ timedEvents (sweepLog cands r sizes wr) false, e.isGenInput = false)
    ∧ (genIds (sweepLog cands r sizes wr)).Nodup
    ∧ usesOnlyGenerated (sweepLog cands r sizes wr) [] = true
    ∧ (∀ nm a b, Event.invoke nm a b ∈ sweepLog cands r sizes wr →
        ∃ s ∈ sizes, a.shape = (s, s) ∧ b.shape = (s, s)) := by
  obtain ⟨clk, pnd, h⟩ :=
    runSweep_ok cands r (Nat.one_le_iff_ne_zero.mp hr) sizes hall wc wp wr wl wo
  exact ⟨by rw [h], timed_no_genInput_sweepLog cands r sizes wr,
    by rw [genIds_sweepLog]; exact List.nodup_range' _ _,
    usesOnlyGenerated_sweepLog cands r sizes wr [],
    fun nm a b hm => invoke_shape_sweepLog cands r sizes wr nm a b hm⟩

/-- Witness for C6 at a concrete sweep of two sizes and two candidates. -/
theorem runSweep_fresh_inputs_outside_timed_region_witness :
    (1 ≤ 2 ∧ ∀ s ∈ [4, 8], ∀ c ∈ [candA, candB], c.raises (s, s) (s, s) = none)
    ∧ ((runSweep [candA, candB] 2 [4, 8] ⟨0, 0, 0, [], []⟩).2.log
          = [] ++ sweepLog [candA, candB] 2 [4, 8] 0
      ∧ (∀ e ∈ timedEvents (sweepLog [candA, candB] 2 [4, 8] 0) false,
          e.isGenInput = false)
      ∧ (genIds (sweepLog [candA, candB] 2 [4, 8] 0)).Nodup
      ∧ usesOnlyGenerated (sweepLog [candA, candB] 2 [4, 8] 0) [] = true
      ∧ (∀ nm a b, Event.invoke nm a b ∈ sweepLog [candA, candB] 2 [4, 8] 0 →
          ∃ s ∈ [4, 8], a.shape = (s, s) ∧ b.shape = (s, s))) :=
  ⟨⟨by decide, by decide⟩,
   runSweep_fresh_inputs_outside_timed_region [candA, candB] 2 [4, 8] (by decide)
     (by decide) 0 0 0 [] []⟩

/-- C7: the `__main__` entry point performs exactly one fixed sweep: the
sizes are `range(1000, 1100, 4)` — 1000, 1004, ..., 1096 — exactly the
three named candidate operations are compared, and for each size one line
announcing the operand shapes is printed, followed by one cost line per
candidate, `<label> cost: <ms> ms`, whose number is the per-call cost of
that candidate converted to milliseconds (times 1000). -/
theorem mainEntry_fixed_sweep_output (bTvm bFallback bDot : OpBehaviour)
    (hall : ∀ s ∈ sweepSizes, bTvm.raises (s, s) (s, s) = none
      ∧ bFallback.raises (s, s) (s, s) = none ∧ bDot.raises (s, s) (s, s) = none)
    (wc wp : ℚ) (wr : Nat) (wl : List Event) (wo : List OutLine) :
    sweepSizes = [1000, 1004, 1008, 1012, 1016, 1020, 1024, 1028, 1032, 1036,
      1040, 1044, 1048, 1052, 1056, 1060, 1064, 1068, 1072, 1076, 1080, 1084,
      1088, 1092, 1096]
    ∧ (mainEntry bTvm bFallback bDot ⟨wc, wp, wr, wl, wo⟩).1 = Except.ok ()
    ∧ (mainEntry bTvm bFallback bDot ⟨wc, wp, wr, wl, wo⟩).2.stdout
        = wo ++ sweepSizes.flatMap (fun s =>
            [OutLine.shapes s s s,
             OutLine.cost "dispatch"
               ((bTvm.dispatch (s, s) (s, s) + bTvm.async (s, s) (s, s)) * 1000),
             OutLine.cost "fallback"
               ((bFallback.dispatch (s, s) (s, s) + bFallback.async (s, s) (s, s)) * 1000),
             OutLine.cost "dot"
               ((bDot.dispatch (s, s) (s, s) + bDot.async (s, s) (s, s)) * 1000)]) := by
  have hall' : ∀ s ∈ sweepSizes, ∀ c ∈ tvmDotCandidates bTvm bFallback bDot,
      c.raises (s, s) (s, s) = none := by
    intro s hs c hc
    simp only [tvmDotCandidates, List.mem_cons, List.not_mem_nil, or_false] at hc
    rcases hc with rfl | rfl | rfl
    · exact (hall s hs).1
    · exact (hall s hs).2.1
    · exact (hall s hs).2.2
  obtain ⟨clk, pnd, h⟩ :=
    runSweep_ok (tvmDotCandidates bTvm bFallback bDot) 2 (by decide) sweepSizes
      hall' wc wp wr wl wo
  have hsb : sizeBlock (tvmDotCandidates bTvm bFallback bDot) = fun s =>
      [OutLine.shapes s s s,
       OutLine.cost "dispatch"
         ((bTvm.dispatch (s, s) (s, s) + bTvm.async (s, s) (s, s)) * 1000),
       OutLine.cost "fallback"
         ((bFallback.dispatch (s, s) (s, s) + bFallback.async (s, s) (s, s)) * 1000),
       OutLine.cost "dot"
         ((bDot.dispatch (s, s) (s, s) + bDot.async (s, s) (s, s)) * 1000)] :=
    funext fun s => by simp [sizeBlock, costLine, tvmDotCandidates]
  refine ⟨by decide, ?_, ?_⟩
  · simp only [mainEntry, test_tvm_dot]
    rw [h]
  · simp only [mainEntry, test_tvm_dot]
    rw [h, ← hsb]

/-- Constant-cost stand-ins for the three opaque operations, used to
instantiate the entry-point theorem. -/
def behTvm : OpBehaviour := ⟨fun _ _ => 1, fun _ _ => 0, fun _ _ => none⟩

def behFallback : OpBehaviour := ⟨fun _ _ => 2, fun _ _ => 0, fun _ _ => none⟩

def behDot : OpBehaviour := ⟨fun _ _ => 3, fun _ _ => 1, fun _ _ => none⟩

theorem mainEntry_fixed_sweep_output_witness :
    (∀ s ∈ sweepSizes, behTvm.raises (s, s) (s, s) = none
      ∧ behFallback.raises (s, s) (s, s) = none ∧ behDot.raises (s, s) (s, s) = none)
    ∧ (sweepSizes = [1000, 1004, 1008, 1012, 1016, 1020, 1024, 1028, 1032, 1036,
        1040, 1044, 1048, 1052, 1056, 1060, 1064, 1068, 1072, 1076, 1080, 1084,
        1088, 1092, 1096]
      ∧ (mainEntry behTvm behFallback behDot ⟨0, 0, 0, [], []⟩).1 = Except.ok ()
      ∧ (mainEntry behTvm behFallback behDot ⟨0, 0, 0, [], []⟩).2.stdout
          = [] ++ sweepSizes.flatMap (fun s =>
              [OutLine.shapes s s s,
               OutLine.cost "dispatch"
                 ((behTvm.dispatch (s, s) (s, s) + behTvm.async (s, s) (s, s)) * 1000),
               OutLine.cost "fallback"
                 ((behFallback.dispatch (s, s) (s, s)
                    + behFallback.async (s, s) (s, s)) * 1000),
               OutLine.cost "dot"
                 ((behDot.dispatch (s, s) (s, s) + behDot.async (s, s) (s, s)) * 1000)])) :=
  ⟨by decide,
   mainEntry_fixed_sweep_output behTvm behFallback behDot (by decide) 0 0 0 [] []⟩

/-! ### `ci/build_windows.py`: build flavours and CMake flag table -/

/-- The `BuildFlavour` enumeration, members in declaration order. -/
inductive BuildFlavour where
  | WIN_CPU
  | WIN_CPU_ONEDNN
  | WIN_CPU_ONEDNN_MKL
  | WIN_CPU_MKL
  | WIN_GPU
  | WIN_GPU_ONEDNN
deriving DecidableEq, Repr

/-- `Enum` member `.name` (equal to its string value in this enum). -/
def BuildFlavour.name : BuildFlavour → String
  | BuildFlavour.WIN_CPU => "WIN_CPU"
  | BuildFlavour.WIN_CPU_ONEDNN => "WIN_CPU_ONEDNN"
  | BuildFlavour.WIN_CPU_ONEDNN_MKL => "WIN_CPU_ONEDNN_MKL"
  | BuildFlavour.WIN_CPU_MKL => "WIN_CPU_MKL"
  | BuildFlavour.WIN_GPU => "WIN_GPU"
  | BuildFlavour.WIN_GPU_ONEDNN => "WIN_GPU_ONEDNN"

/-- Iterating over the `BuildFlavour` enum yields its members in
declaration order. -/
def buildFlavourMembers : List BuildFlavour :=
  [BuildFlavour.WIN_CPU, BuildFlavour.WIN_CPU_ONEDNN,
   BuildFlavour.WIN_CPU_ONEDNN_MKL, BuildFlavour.WIN_CPU_MKL,
   BuildFlavour.WIN_GPU, BuildFlavour.WIN_GPU_ONEDNN]

/-- The `CMAKE_FLAGS` dictionary; each value is the concatenation of the
adjacent string literals in the source (note the double space after
`-DUSE_OPENCV=ON` in the `WIN_GPU` entry, kept verbatim). -/
def CMAKE_FLAGS : List (String × String) :=
  [("WIN_CPU",
    "-DCMAKE_C_COMPILER=cl -DCMAKE_CXX_COMPILER=cl -DUSE_CUDA=OFF -DUSE_CUDNN=OFF -DUSE_OPENCV=ON -DUSE_OPENMP=ON -DUSE_BLAS=open -DUSE_LAPACK=ON -DUSE_DIST_KVSTORE=OFF -DBUILD_CPP_EXAMPLES=ON -DCMAKE_BUILD_TYPE=Release"),
   ("WIN_CPU_ONEDNN",
    "-DCMAKE_C_COMPILER=cl -DCMAKE_CXX_COMPILER=cl -DUSE_CUDA=OFF -DUSE_CUDNN=OFF -DUSE_OPENCV=ON -DUSE_OPENMP=ON -DUSE_BLAS=open -DUSE_LAPACK=ON -DUSE_DIST_KVSTORE=OFF -DUSE_ONEDNN=ON -DCMAKE_BUILD_TYPE=Release"),
   ("WIN_CPU_ONEDNN_MKL",
    "-DCMAKE_C_COMPILER=cl -DCMAKE_CXX_COMPILER=cl -DUSE_CUDA=OFF -DUSE_CUDNN=OFF -DUSE_OPENCV=ON -DUSE_OPENMP=ON -DUSE_BLAS=mkl -DUSE_LAPACK=ON -DUSE_DIST_KVSTORE=OFF -DUSE_ONEDNN=ON -DCMAKE_BUILD_TYPE=Release"),
   ("WIN_CPU_MKL",
    "-DCMAKE_C_COMPILER=cl -DCMAKE_CXX_COMPILER=cl -DUSE_CUDA=OFF -DUSE_CUDNN=OFF -DUSE_OPENCV=ON -DUSE_OPENMP=ON -DUSE_BLAS=mkl -DUSE_LAPACK=ON -DUSE_DIST_KVSTORE=OFF -DUSE_ONEDNN=OFF -DCMAKE_BUILD_TYPE=Release"),
   ("WIN_GPU",
    "-DCMAKE_C_COMPILER=cl -DCMAKE_CXX_COMPILER=cl -DUSE_CUDA=ON -DUSE_CUDNN=ON -DUSE_OPENCV=ON  -DUSE_OPENMP=ON -DUSE_BLAS=open -DUSE_LAPACK=ON -DUSE_DIST_KVSTORE=OFF -DMXNET_CUDA_ARCH=\"5.2 7.5\" -DCMAKE_BUILD_TYPE=Release"),
   ("WIN_GPU_ONEDNN",
    "-DCMAKE_C_COMPILER=cl -DCMAKE_CXX_COMPILER=cl -DUSE_CUDA=ON -DUSE_CUDNN=ON -DUSE_OPENCV=ON -DUSE_OPENMP=ON -DUSE_BLAS=open -DUSE_LAPACK=ON -DUSE_DIST_KVSTORE=OFF -DMXNET_CUDA_ARCH=\"5.2 7.5\" -DUSE_ONEDNN=ON -DCMAKE_BUILD_TYPE=Release")]

/-- `argparse` `choices=[x.name for x in BuildFlavour]`: the only flavour
strings the command-line parser accepts. -/
def flavourChoices : List String := buildFlavourMembers.map BuildFlavour.name

/-- The dictionary access `CMAKE_FLAGS[args.flavour]` in `windows_build`;
`none` models a `KeyError`. -/
def lookupFlags (flavour : String) : Option String :=
  (CMAKE_FLAGS.find? (fun p => p.1 == flavour)).map Prod.snd

/-- C9: every `BuildFlavour` member is listed, the parser accepts exactly
the member names, and `CMAKE_FLAGS[flavour]` succeeds for every
parser-accepted flavour string, so the lookup in `windows_build` can never
hit a missing key. -/
theorem cmake_flags_total_on_flavours :
    (∀ f : BuildFlavour, f ∈ buildFlavourMembers)
    ∧ flavourChoices = buildFlavourMembers.map BuildFlavour.name
    ∧ (flavourChoices.all fun s => (lookupFlags s).isSome) = true := by
  refine ⟨fun f => ?_, rfl, by decide⟩
  cases f <;> simp [buildFlavourMembers]

/-! ### `gluon/contrib/estimator/utils.py`: `_check_handler_metric_ref` -/

/-- Leading-match test on character lists. -/
def startsWithL : List Char → List Char → Bool
  | [], _ => true
  | _ :: _, [] => false
  | a :: as, b :: bs => a == b && startsWithL as bs

/-- Substring containment on character lists. -/
def containsL (sub : List Char) : List Char → Bool
  | [] => startsWithL sub []
  | b :: bs => startsWithL sub (b :: bs) || containsL sub bs

/-- Python's `sub in s` substring test on strings. -/
def pyIn (sub s : String) : Bool := containsL sub.data s.data

/-- Python's `a or b` on strings: the first operand if it is truthy
(non-empty), otherwise the second. -/
def pyOrStr (a b : String) : String := if a = "" then b else a

/-- The keyword list `['metric' or 'monitor']` from
`_check_handler_metric_ref` — a one-element list whose element is the
Python expression `'metric' or 'monitor'`. -/
def metricKeywords : List String := [pyOrStr "metric" "monitor"]

/-- `any(keyword in attribute for keyword in ['metric' or 'monitor'])`:
whether the handler attribute named `attr` is inspected at all. -/
def attrExamined (attr : String) : Bool :=
  metricKeywords.any (fun kw => pyIn kw attr)

/-- The value of a handler attribute, as far as the reflection scan looks
at it: a falsy value (`None`, empty list, ...), a single metric object, or
a list of metric objects.  Metric objects are identified by opaque ids. -/
inductive RefVal where
  | falsy
  | single (m : Nat)
  | listOf (ms : List Nat)
deriving DecidableEq, Repr

/-- Python truthiness of an attribute value: metric objects are truthy,
a list is truthy when non-empty. -/
def truthyRef : RefVal → Bool
  | RefVal.falsy => false
  | RefVal.single _ => true
  | RefVal.listOf ms => !ms.isEmpty

/-- `_check_metric_known`: raise `ValueError` when the referenced metric
is not among the known training/validation metrics. -/
def checkMetricKnown (m : Nat) (known : List Nat) : Except String Unit :=
  if m ∈ known then Except.ok ()
  else Except.error "metric reference outside of the known metrics"

/-- `for metric in reference: _check_metric_known(...)`. -/
def checkMetricList (known : List Nat) : List Nat → Except String Unit
  | [] => Except.ok ()
  | m :: ms =>
      match checkMetricKnown m known with
      | Except.ok _ => checkMetricList known ms
      | Except.error e => Except.error e

/-- The body applied to one truthy reference: a list is checked
element-wise, anything else is checked as a single metric. -/
def checkOneRef (v : RefVal) (known : List Nat) : Except String Unit :=
  match v with
  | RefVal.listOf ms => checkMetricList known ms
  | RefVal.single m => checkMetricKnown m known
  | RefVal.falsy => Except.ok ()

/-- `_check_handler_metric_ref(handler, known_metrics)`: scan the handler
attributes (name/value pairs, standing for `dir(handler)` plus
`getattr`); inspect an attribute only when some keyword occurs in its
name; skip falsy references; validate the rest. -/
def checkHandlerMetricRef : List (String × RefVal) → List Nat → Except String Unit
  | [], _ => Except.ok ()
  | (nm, v) :: rest, known =>
      if attrExamined nm then
        if truthyRef v then
          match checkOneRef v known with
          | Except.ok _ => checkHandlerMetricRef rest known
          | Except.error e => Except.error e
        else checkHandlerMetricRef rest known
      else checkHandlerMetricRef rest known

/-- C10: because `'metric' or 'monitor'` evaluates to `'metric'`, the
keyword list is exactly `["metric"]`; an attribute is examined exactly
when its name contains the substring `"metric"`; in particular the
attribute name `"monitor"` is not examined while `"train_metrics"` is; and
the whole validation is unchanged if every attribute whose name does not
contain `"metric"` is dropped — such attributes (including any containing
only `"monitor"`) are never examined or validated. -/
theorem check_handler_metric_ref_only_metric_attrs :
    metricKeywords = ["metric"]
    ∧ (∀ attr, attrExamined attr = pyIn "metric" attr)
    ∧ attrExamined "monitor" = false
    ∧ attrExamined "train_metrics" = true
    ∧ (∀ attrs known, checkHandlerMetricRef attrs known
        = checkHandlerMetricRef (attrs.filter fun p => pyIn "metric" p.1) known) := by
  have hk : metricKeywords = ["metric"] := by decide
  have h2 : ∀ attr, attrExamined attr = pyIn "metric" attr := by
    intro attr
    simp [attrExamined, hk]
  refine ⟨hk, h2, by decide, by decide, ?_⟩
  intro attrs known
  induction attrs with
  | nil => simp [checkHandlerMetricRef]
  | cons p rest ih =>
      rcases p with ⟨nm, v⟩
      cases hnm : pyIn "metric" nm with
      | true =>
          cases htr : truthyRef v with
          | true =>
              cases hco : checkOneRef v known with
              | ok u =>
                  simp [checkHandlerMetricRef, List.filter_cons, h2, hnm, htr, hco, ih]
              | error e =>
                  simp [checkHandlerMetricRef, List.filter_cons, h2, hnm, htr, hco]
          | false =>
              simp [checkHandlerMetricRef, List.filter_cons, h2, hnm, htr, ih]
      | false =>
          simp [checkHandlerMetricRef, List.filter_cons, h2, hnm, ih]
